import Mathlib

/-!
Verification development for the Germanapp vocabulary sync subsystem.

The embedding covers:
* the sync server's merge endpoint `POST /api/words/sync`
  (backend server file, `app.post("/api/words/sync")`): per-entry
  last-writer-wins merge with concurrent-edit conflict detection,
  tombstone maintenance for deletions, and delta response construction;
* the sync client (`wordEntriesSync`): `syncFromRemote`,
  `applyRemoteChanges`, `ensureLocalMetadata`, `recordEntryDeletion`;
* the conflict-resolution handler `handleResolveConflict` in `App`;
* the local entry store (`wordEntriesStorage`): `persistEntries` with its
  storage-capacity degradation ladder, `stripEntryMedia`, `updateWordEntry`.

Modelling conventions:
* Timestamps in the source are ISO-8601 strings produced by
  `Date.toISOString()`. On that canonical fixed-width format, string
  equality coincides with instant equality, and both lexicographic string
  order (Mongo `$gt` on the raw string) and `Date.parse` order coincide
  with chronological order. A timestamp is therefore modelled as a `Nat`.
  Absent (`null`/`undefined`) timestamps are `Option.none`;
  `compareTimestamp` mirrors the source's `left ? Date.parse(left) : 0`.
* A Mongo collection keyed by `_id` is an association list of records;
  `findOne` / `updateOne`(upsert) / `deleteOne` act on the first match.
* Entry content fields (german, english, examples, notes, ...) are
  opaque to the sync logic and collapsed into a single `payload : Nat`;
  the media URLs, which the storage degradation ladder inspects, are
  kept as explicit fields.
* One wall-clock reading (`now`) is used per request/operation, standing
  for the several `new Date()` calls the source makes while handling it.
-/

namespace Germanapp

/-- `Date.parse` of a possibly-absent timestamp, with the source's
`left ? Date.parse(left) : 0` convention for `null`/`undefined`. -/
def tsVal : Option Nat → Int
  | none => 0
  | some t => (t : Int)

/-- `compareTimestamp` (identical in the server, the sync client and the
storage module): difference of the parsed values. -/
def compareTimestamp (left right : Option Nat) : Int :=
  tsVal left - tsVal right

/-- A media URL; `isData` records whether it is an inline `data:` URL
(the only property `stripEntryMedia` inspects). -/
structure MediaUrl where
  isData : Bool
  val : Nat
deriving DecidableEq, Repr

/-- `isDataUrl` from `wordEntriesStorage`: true on a present `data:` URL. -/
def isDataUrl : Option MediaUrl → Bool
  | none => false
  | some u => u.isData

/-- A word entry as it travels between client store, wire and server
collection.  `updatedAt`/`clientId` are the sync metadata (optional,
as in the duck-typed JSON payloads); the remaining content fields are
collapsed into `payload`, with the media URLs kept explicit for the
storage degradation ladder. -/
structure WordEntry where
  id : String
  updatedAt : Option Nat
  clientId : Option String
  imageUrl : Option MediaUrl
  audioUrl : Option MediaUrl
  payload : Nat
deriving DecidableEq, Repr

/-- A deletion tombstone in the `wordEntryDeletions` collection. -/
structure Tomb where
  id : String
  deletedAt : Nat
deriving DecidableEq, Repr

inductive ConflictType
  | update
  | delete
deriving DecidableEq, Repr

/-- A conflict as emitted by the server merge:
`{id, type, local, remote}`. -/
structure Conflict where
  id : String
  ctype : ConflictType
  localEntry : Option WordEntry
  remoteEntry : Option WordEntry
deriving DecidableEq, Repr

/-- `findOne({_id: i})` on an entry collection: first record with that id. -/
def findEntry : List WordEntry → String → Option WordEntry
  | [], _ => none
  | e :: es, i => if e.id = i then some e else findEntry es i

/-- `updateOne({_id: r.id}, {$set: r}, {upsert: true})`: replace the first
record with that id, or append the record if none exists. -/
def upsertEntry : List WordEntry → WordEntry → List WordEntry
  | [], r => [r]
  | e :: es, r => if e.id = r.id then r :: es else e :: upsertEntry es r

/-- `deleteOne({_id: i})`: remove the first record with that id. -/
def eraseEntry : List WordEntry → String → List WordEntry
  | [], _ => []
  | e :: es, i => if e.id = i then es else e :: eraseEntry es i

/-- `updateOne({_id: i}, {$set: {deletedAt: now}}, {upsert: true})` on the
tombstone collection. -/
def upsertTomb : List Tomb → String → Nat → List Tomb
  | [], i, now => [⟨i, now⟩]
  | t :: ts, i, now => if t.id = i then ⟨i, now⟩ :: ts else t :: upsertTomb ts i now

/-- `deleteOne({_id: i})` on the tombstone collection. -/
def eraseTomb : List Tomb → String → List Tomb
  | [], _ => []
  | t :: ts, i => if t.id = i then ts else t :: eraseTomb ts i

/-- The server's durable state: the `wordEntries` and `wordEntryDeletions`
collections. -/
structure ServerState where
  entries : List WordEntry
  tombs : List Tomb
deriving DecidableEq, Repr

/-- `normalizeEntry` on the server: fill in missing `updatedAt` with the
current time and missing `clientId` with the request's client id. -/
def normalizeEntry (e : WordEntry) (cid : String) (now : Nat) : WordEntry :=
  { e with updatedAt := some (e.updatedAt.getD now), clientId := some (e.clientId.getD cid) }

/-- The server's concurrency test for an incoming entry against the
existing record:
`since && cmp(existing.updatedAt, since) > 0 && cmp(normalized.updatedAt, since) > 0
&& normalized.updatedAt !== existing.updatedAt`. -/
def isConcurrent (since : Option Nat) (existingU incomingU : Option Nat) : Prop :=
  since.isSome ∧ 0 < compareTimestamp existingU since ∧
    0 < compareTimestamp incomingU since ∧ incomingU ≠ existingU

instance (since existingU incomingU : Option Nat) :
    Decidable (isConcurrent since existingU incomingU) := by
  unfold isConcurrent; infer_instance

/-- Accumulator of the merge loop: server state plus the conflicts built
so far. -/
structure MergeAcc where
  state : ServerState
  conflicts : List Conflict
deriving DecidableEq, Repr

/-- One iteration of the entry merge loop of `app.post("/api/words/sync")`:
skip falsy ids; against an existing record, emit an update conflict if
concurrent, skip if not newer, otherwise upsert the normalized record and
clear any tombstone for the id. -/
def processEntry (cid : String) (since : Option Nat) (now : Nat)
    (acc : MergeAcc) (e : WordEntry) : MergeAcc :=
  if e.id = "" then acc
  else
    let n := normalizeEntry e cid now
    match findEntry acc.state.entries e.id with
    | some existing =>
      if isConcurrent since existing.updatedAt n.updatedAt then
        { acc with conflicts := acc.conflicts ++ [⟨e.id, .update, some n, some existing⟩] }
      else if compareTimestamp n.updatedAt existing.updatedAt ≤ 0 then acc
      else
        { state := ⟨upsertEntry acc.state.entries n, eraseTomb acc.state.tombs e.id⟩,
          conflicts := acc.conflicts }
    | none =>
      { state := ⟨upsertEntry acc.state.entries n, eraseTomb acc.state.tombs e.id⟩,
        conflicts := acc.conflicts }

/-- One iteration of the deletion loop: skip falsy ids; no-op when the
record is already gone; emit a delete conflict (and keep the record) when
the record changed after the watermark; otherwise delete the record and
write/refresh a tombstone at the current time. -/
def processDelete (since : Option Nat) (now : Nat)
    (acc : MergeAcc) (i : String) : MergeAcc :=
  if i = "" then acc
  else
    match findEntry acc.state.entries i with
    | none => acc
    | some existing =>
      if since.isSome ∧ 0 < compareTimestamp existing.updatedAt since then
        { acc with conflicts := acc.conflicts ++ [⟨i, .delete, none, some existing⟩] }
      else
        { state := ⟨eraseEntry acc.state.entries i, upsertTomb acc.state.tombs i now⟩,
          conflicts := acc.conflicts }

/-- The body of a sync request,
`{clientId, since, entries, deletedIds}`. -/
structure SyncRequest where
  clientId : String
  since : Option Nat
  entries : List WordEntry
  deletedIds : List String
deriving DecidableEq, Repr

/-- The server's response,
`{entries, deletedIds, serverTime, conflicts}`. -/
structure ServerResponse where
  entries : List WordEntry
  deletedIds : List String
  serverTime : Nat
  conflicts : List Conflict
deriving DecidableEq, Repr

/-- The full merge of one sync request: the entry loop, the deletion loop,
then the response: entries with `updatedAt > since` (all entries when
`since` is absent), ids of tombstones with `deletedAt > since` (none when
`since` is absent), the current server time, and the built conflicts. -/
def mergeSync (s : ServerState) (req : SyncRequest) (now : Nat) :
    ServerState × ServerResponse :=
  let acc1 := req.entries.foldl (processEntry req.clientId req.since now) ⟨s, []⟩
  let acc2 := req.deletedIds.foldl (processDelete req.since now) acc1
  let respEntries :=
    match req.since with
    | some sn => acc2.state.entries.filter fun r =>
        match r.updatedAt with
        | some u => decide (sn < u)
        | none => false
    | none => acc2.state.entries
  let respDeleted :=
    match req.since with
    | some sn => (acc2.state.tombs.filter fun t => decide (sn < t.deletedAt)).map Tomb.id
    | none => []
  (acc2.state, ⟨respEntries, respDeleted, now, acc2.conflicts⟩)

/-! ## Sync client (`wordEntriesSync`) -/

/-- The client's persisted sync state (`germanapp.wordSyncState`). -/
structure SyncState where
  clientId : String
  lastSyncAt : Option Nat
  pendingDeletedIds : List String
deriving DecidableEq, Repr

/-- The response body as `syncToRemote` normalizes it: non-array `entries`,
`deletedIds`, `conflicts` become `[]`; `serverTime` is passed through and
may be absent from a malformed body. -/
structure SyncResponseJson where
  entries : List WordEntry
  deletedIds : List String
  serverTime : Option Nat
  conflicts : List Conflict
deriving DecidableEq, Repr

/-- `ensureLocalMetadata`: stamp entries missing `updatedAt` or `clientId`
with the current time / this device's client id before sending. -/
def ensureLocalMetadata (entries : List WordEntry) (cid : String) (now : Nat) :
    List WordEntry :=
  entries.map fun e =>
    if e.updatedAt.isSome ∧ e.clientId.isSome then e
    else { e with updatedAt := some (e.updatedAt.getD now),
                  clientId := some (e.clientId.getD cid) }

/-- Lookup in a `Map` built with `new Map(list.map(x => [x.id, x]))`:
a later element with the same id overwrites an earlier one. -/
def findLastConflict (conflicts : List Conflict) (i : String) : Option Conflict :=
  conflicts.foldl (fun acc c => if c.id = i then some c else acc) none

/-- `applyRemoteChanges`: fold remote entries into the local store
(skipping ids with an update-type conflict, accepting a remote copy only
when absent locally or strictly newer), then apply remote deletions
(skipping ids with a delete-type conflict, deleting only when there is no
watermark or the local copy is not newer than it).  The local store is
handled through the same id-keyed `Map` the source builds. -/
def applyRemoteChanges (localEntries : List WordEntry)
    (remoteEntries : List WordEntry) (deletedIds : List String)
    (conflicts : List Conflict) (since : Option Nat) : List WordEntry :=
  let m0 := localEntries.foldl upsertEntry []
  let m1 := remoteEntries.foldl
    (fun m entry =>
      if (findLastConflict conflicts entry.id).any (·.ctype = .update) then m
      else
        match findEntry m entry.id with
        | none => upsertEntry m entry
        | some localCopy =>
          if 0 < compareTimestamp entry.updatedAt localCopy.updatedAt then
            upsertEntry m entry
          else m)
    m0
  deletedIds.foldl
    (fun m i =>
      if (findLastConflict conflicts i).any (·.ctype = .delete) then m
      else
        match findEntry m i with
        | none => m
        | some entry =>
          if since.isNone ∨ compareTimestamp entry.updatedAt since ≤ 0 then
            eraseEntry m i
          else m)
    m1

/-- The client's volatile state the sync cycle touches: the entry store and
the persisted sync state.  Storage writes are modelled as always
succeeding here; the capacity-degradation ladder is modelled separately
with `persistEntries`. -/
structure ClientState where
  entries : List WordEntry
  syncState : SyncState
deriving DecidableEq, Repr

/-- One sync cycle, `syncFromRemote`: stamp local metadata, send the delta
(`syncToRemote`), and on a success status apply the remote changes,
recompute `pendingDeletedIds` (keep ids not acknowledged in `deletedIds`
or still conflicted), and advance `lastSyncAt` to the response's
`serverTime` (falling back to the local clock when the response carries
none).  A non-success HTTP status makes `syncToRemote` throw before any
sync-state write: the error result carries the state as the failed cycle
leaves it. -/
def syncFromRemote (cs : ClientState) (status : Nat) (body : SyncResponseJson)
    (nowClient : Nat) : Except ClientState ClientState :=
  let st := cs.syncState
  let localEntries := ensureLocalMetadata cs.entries st.clientId nowClient
  if 200 ≤ status ∧ status < 300 then
    let entries' := applyRemoteChanges localEntries body.entries body.deletedIds
      body.conflicts st.lastSyncAt
    let pending' := st.pendingDeletedIds.filter fun i =>
      ¬ body.deletedIds.contains i ∨ body.conflicts.any (·.id = i)
    Except.ok
      { entries := entries',
        syncState :=
          { clientId := st.clientId,
            lastSyncAt := some (body.serverTime.getD nowClient),
            pendingDeletedIds := pending' } }
  else
    Except.error { entries := localEntries, syncState := st }

/-- `recordEntryDeletion`: add an id to `pendingDeletedIds` unless already
present. -/
def recordEntryDeletion (st : SyncState) (entryId : String) : SyncState :=
  if st.pendingDeletedIds.contains entryId then st
  else { st with pendingDeletedIds := st.pendingDeletedIds ++ [entryId] }

/-! ## Conflict resolution (`handleResolveConflict` in `App`) -/

inductive ResolveAction
  | keepLocal
  | keepRemote
  | mergeBoth
deriving DecidableEq, Repr

/-- `stampEntryMetadata` in `wordEntriesStorage`: a local mutation gets a
fresh `updatedAt` and this device's `clientId`. -/
def stampEntryMetadata (e : WordEntry) (now : Nat) (cid : String) : WordEntry :=
  { e with updatedAt := some now, clientId := some cid }

/-- The list-level content of `updateWordEntry`: replace the entry with a
matching id by the stamped entry; an unknown id changes nothing. -/
def updateEntryList (entries : List WordEntry) (nextEntry : WordEntry)
    (now : Nat) (cid : String) : List WordEntry :=
  let stamped := stampEntryMetadata nextEntry now cid
  entries.map fun e => if e.id = stamped.id then stamped else e

/-- The field-by-field merge the handler builds for a merge resolution,
`{...conflict.remote, ...conflict.local, ...}`: on our opaque payload the
local spread wins; the explicit media fallbacks mirror the source. -/
def mergeConflictEntries (l r : WordEntry) : WordEntry :=
  { l with imageUrl := l.imageUrl <|> r.imageUrl,
           audioUrl := l.audioUrl <|> r.audioUrl }

/-- The app state `handleResolveConflict` touches: the entry store, the
persisted sync state, and the outstanding conflict list. -/
structure AppState where
  entries : List WordEntry
  syncState : SyncState
  syncConflicts : List Conflict
deriving DecidableEq, Repr

/-- `handleResolveConflict`: look up the conflict by id; apply the chosen
action ("remote" replaces the local copy with the remote one, "merge"
updates the store with the combined entry freshly stamped, "local" acts
only on delete-type conflicts, re-recording the pending deletion and
deleting locally); finally drop the conflict from the outstanding list. -/
def handleResolveConflict (s : AppState) (conflictId : String)
    (action : ResolveAction) (now : Nat) : AppState :=
  match s.syncConflicts.find? (fun c => c.id = conflictId) with
  | none => s
  | some conflict =>
    let s' :=
      match action with
      | .keepRemote =>
        match conflict.remoteEntry with
        | some r =>
          { s with entries := r :: s.entries.filter (fun e => e.id ≠ conflict.id) }
        | none => s
      | .mergeBoth =>
        match conflict.localEntry, conflict.remoteEntry with
        | some l, some r =>
          { s with entries :=
              updateEntryList s.entries (mergeConflictEntries l r) now s.syncState.clientId }
        | _, _ => s
      | .keepLocal =>
        if conflict.ctype = ConflictType.delete then
          { s with syncState := recordEntryDeletion s.syncState conflict.id,
                   entries := s.entries.filter (fun e => e.id ≠ conflict.id) }
        else s
    { s' with syncConflicts := s'.syncConflicts.filter (fun c => c.id ≠ conflictId) }

/-! ## Entry store persistence (`wordEntriesStorage`) -/

/-- Outcome of one `storage.setItem` attempt: success, a quota error
(`QuotaExceededError` / `NS_ERROR_DOM_QUOTA_REACHED`), or any other
error.  The backend is abstracted as a function of the value written. -/
inductive StoreOutcome
  | ok
  | quota
  | failed
deriving DecidableEq, Repr

/-- `stripEntryMedia`: replace inline `data:` media URLs by null, leaving
the entry itself (and hosted URLs) in place. -/
def stripEntryMedia (e : WordEntry) : WordEntry :=
  if ¬ isDataUrl e.imageUrl ∧ ¬ isDataUrl e.audioUrl then e
  else
    { e with imageUrl := if isDataUrl e.imageUrl then none else e.imageUrl,
             audioUrl := if isDataUrl e.audioUrl then none else e.audioUrl }

def stripEntriesMedia (entries : List WordEntry) : List WordEntry :=
  entries.map stripEntryMedia

/-- The trimming loop of `persistEntries`: while entries remain, drop the
last (oldest, in the newest-first store order) entry and re-attempt the
write; a non-quota error propagates; when nothing remains, the key is
removed and `[]` returned.  The fuel is the list length, so fuel `0`
coincides with the empty list.  The result pairs the final stored value
(`none` = key removed) with the returned list. -/
def trimLoop (att : List WordEntry → StoreOutcome) :
    Nat → List WordEntry → Except Unit (Option (List WordEntry) × List WordEntry)
  | 0, _ => Except.ok (none, [])
  | n + 1, l =>
    let t := l.dropLast
    match att t with
    | .ok => Except.ok (some t, t)
    | .failed => Except.error ()
    | .quota => trimLoop att n t

/-- `persistEntries`: write the list; on a quota error, re-attempt with
inline media stripped; on a further quota error, drop the oldest entry
one at a time; finally clear the key.  Any non-quota error propagates
immediately.  Returns the final stored value and the returned list. -/
def persistEntries (att : List WordEntry → StoreOutcome) (entries : List WordEntry) :
    Except Unit (Option (List WordEntry) × List WordEntry) :=
  match att entries with
  | .ok => Except.ok (some entries, entries)
  | .failed => Except.error ()
  | .quota =>
    let stripped := stripEntriesMedia entries
    match att stripped with
    | .ok => Except.ok (some stripped, stripped)
    | .failed => Except.error ()
    | .quota => trimLoop att stripped.length stripped

/-- `updateWordEntry`: stamp the entry and persist the store with the
matching entry replaced. -/
def updateWordEntry (att : List WordEntry → StoreOutcome)
    (stored : List WordEntry) (nextEntry : WordEntry) (now : Nat) (cid : String) :
    Except Unit (Option (List WordEntry) × List WordEntry) :=
  persistEntries att (updateEntryList stored nextEntry now cid)

/-- Modelled from the spec: the degradation ladder of §4.1/§9 as "an
explicit ordered list of degradation strategies applied in sequence until
a write succeeds or the list is exhausted" — the reference behaviour the
imperative `persistEntries` is checked against. -/
def specFirstFit (att : List WordEntry → StoreOutcome) :
    List (List WordEntry) → Except Unit (Option (List WordEntry) × List WordEntry)
  | [] => Except.ok (none, [])
  | x :: xs =>
    match att x with
    | .ok => Except.ok (some x, x)
    | .failed => Except.error ()
    | .quota => specFirstFit att xs

/-- The chain of candidate lists obtained by dropping the oldest entry one
at a time (fuel = list length, so the chain ends at `[]`). -/
def dropOldestChain : Nat → List WordEntry → List (List WordEntry)
  | 0, _ => []
  | n + 1, l => l.dropLast :: dropOldestChain n l.dropLast

/-- Modelled from the spec: the full degradation ladder — the list as
given, then with inline media stripped, then with the oldest entries
dropped one at a time down to the empty list. -/
def specLadder (entries : List WordEntry) : List (List WordEntry) :=
  entries :: stripEntriesMedia entries ::
    dropOldestChain (stripEntriesMedia entries).length (stripEntriesMedia entries)

/-! ## Basic lemmas about the collection operations -/

theorem MergeAcc.ext2 {a b : MergeAcc} (h1 : a.state = b.state)
    (h2 : a.conflicts = b.conflicts) : a = b := by
  cases a; cases b; simp_all

theorem compareTimestamp_self (a : Option Nat) : compareTimestamp a a = 0 := by
  simp [compareTimestamp]

theorem ne_of_cmp_pos {a b : Option Nat} (h : 0 < compareTimestamp a b) : a ≠ b := by
  intro he
  rw [he, compareTimestamp_self] at h
  exact lt_irrefl 0 h

theorem compareTimestamp_telescope (a b c : Option Nat) :
    compareTimestamp a c = compareTimestamp a b + compareTimestamp b c := by
  unfold compareTimestamp
  ring

theorem findEntry_upsert (r : WordEntry) (i : String) : ∀ l : List WordEntry,
    findEntry (upsertEntry l r) i = if r.id = i then some r else findEntry l i := by
  intro l
  induction l with
  | nil => simp [upsertEntry, findEntry]
  | cons e es ih =>
    by_cases he : e.id = r.id
    · by_cases hi : r.id = i
      · rw [show upsertEntry (e :: es) r = r :: es from by simp [upsertEntry, he]]
        simp [findEntry, hi]
      · have hei : ¬ e.id = i := fun h => hi (he.symm.trans h)
        rw [show upsertEntry (e :: es) r = r :: es from by simp [upsertEntry, he]]
        simp [findEntry, hi, hei]
    · rw [show upsertEntry (e :: es) r = e :: upsertEntry es r from by
        simp [upsertEntry, he]]
      by_cases hei : e.id = i
      · have hi : ¬ r.id = i := fun h => he (hei.trans h.symm)
        simp [findEntry, hei, hi]
      · simp [findEntry, hei, ih]

theorem findEntry_erase_ne (i j : String) (h : j ≠ i) : ∀ l : List WordEntry,
    findEntry (eraseEntry l i) j = findEntry l j := by
  intro l
  induction l with
  | nil => simp [eraseEntry]
  | cons e es ih =>
    by_cases he : e.id = i
    · have hej : ¬ e.id = j := fun h' => h (h'.symm.trans he)
      rw [show eraseEntry (e :: es) i = es from by simp [eraseEntry, he]]
      simp [findEntry, hej]
    · rw [show eraseEntry (e :: es) i = e :: eraseEntry es i from by
        simp [eraseEntry, he]]
      by_cases hej : e.id = j <;> simp [findEntry, hej, ih]

/-- Ids of an entry collection are pairwise distinct — the `_id` uniqueness
a Mongo collection guarantees. -/
def idsNodup (l : List WordEntry) : Prop := (l.map WordEntry.id).Nodup

theorem findEntry_eq_none_of_not_mem (i : String) : ∀ l : List WordEntry,
    i ∉ l.map WordEntry.id → findEntry l i = none := by
  intro l
  induction l with
  | nil => intro _; rfl
  | cons e es ih =>
    intro h
    simp only [List.map_cons, List.mem_cons] at h
    push_neg at h
    have h1 : ¬ e.id = i := fun he => h.1 he.symm
    simp [findEntry, h1, ih h.2]

theorem findEntry_erase_self (i : String) : ∀ l : List WordEntry,
    idsNodup l → findEntry (eraseEntry l i) i = none := by
  intro l
  induction l with
  | nil => intro _; rfl
  | cons e es ih =>
    intro h
    simp only [idsNodup, List.map_cons, List.nodup_cons] at h
    by_cases he : e.id = i
    · rw [show eraseEntry (e :: es) i = es from by simp [eraseEntry, he]]
      exact findEntry_eq_none_of_not_mem i es (he ▸ h.1)
    · rw [show eraseEntry (e :: es) i = e :: eraseEntry es i from by
        simp [eraseEntry, he]]
      simp [findEntry, he, ih h.2]

theorem mem_ids_upsert {r : WordEntry} {j : String} : ∀ {l : List WordEntry},
    j ∈ (upsertEntry l r).map WordEntry.id → j ∈ l.map WordEntry.id ∨ j = r.id := by
  intro l
  induction l with
  | nil => intro h; simp only [upsertEntry, List.map_cons, List.map_nil] at h; simp_all
  | cons e es ih =>
    intro h
    by_cases he : e.id = r.id
    · rw [show upsertEntry (e :: es) r = r :: es from by simp [upsertEntry, he]] at h
      simp only [List.map_cons, List.mem_cons] at h ⊢
      rcases h with h | h
      · exact Or.inr h
      · exact Or.inl (Or.inr h)
    · rw [show upsertEntry (e :: es) r = e :: upsertEntry es r from by
        simp [upsertEntry, he]] at h
      simp only [List.map_cons, List.mem_cons] at h ⊢
      rcases h with h | h
      · exact Or.inl (Or.inl h)
      · rcases ih h with h' | h'
        · exact Or.inl (Or.inr h')
        · exact Or.inr h'

theorem mem_ids_erase {i j : String} : ∀ {l : List WordEntry},
    j ∈ (eraseEntry l i).map WordEntry.id → j ∈ l.map WordEntry.id := by
  intro l
  induction l with
  | nil => intro h; exact h
  | cons e es ih =>
    intro h
    by_cases he : e.id = i
    · rw [show eraseEntry (e :: es) i = es from by simp [eraseEntry, he]] at h
      simp only [List.map_cons, List.mem_cons]
      exact Or.inr h
    · rw [show eraseEntry (e :: es) i = e :: eraseEntry es i from by
        simp [eraseEntry, he]] at h
      simp only [List.map_cons, List.mem_cons] at h ⊢
      rcases h with h | h
      · exact Or.inl h
      · exact Or.inr (ih h)

theorem idsNodup_upsert (r : WordEntry) : ∀ l : List WordEntry,
    idsNodup l → idsNodup (upsertEntry l r) := by
  intro l
  induction l with
  | nil => intro _; simp [upsertEntry, idsNodup]
  | cons e es ih =>
    intro h
    simp only [idsNodup, List.map_cons, List.nodup_cons] at h
    by_cases he : e.id = r.id
    · rw [show upsertEntry (e :: es) r = r :: es from by simp [upsertEntry, he]]
      simp only [idsNodup, List.map_cons, List.nodup_cons]
      exact ⟨he ▸ h.1, h.2⟩
    · rw [show upsertEntry (e :: es) r = e :: upsertEntry es r from by
        simp [upsertEntry, he]]
      simp only [idsNodup, List.map_cons, List.nodup_cons]
      refine ⟨fun hmem => ?_, ih h.2⟩
      rcases mem_ids_upsert hmem with h' | h'
      · exact h.1 h'
      · exact he h'

theorem idsNodup_erase (i : String) : ∀ l : List WordEntry,
    idsNodup l → idsNodup (eraseEntry l i) := by
  intro l
  induction l with
  | nil => intro h; exact h
  | cons e es ih =>
    intro h
    simp only [idsNodup, List.map_cons, List.nodup_cons] at h
    by_cases he : e.id = i
    · rw [show eraseEntry (e :: es) i = es from by simp [eraseEntry, he]]
      exact h.2
    · rw [show eraseEntry (e :: es) i = e :: eraseEntry es i from by
        simp [eraseEntry, he]]
      simp only [idsNodup, List.map_cons, List.nodup_cons]
      exact ⟨fun hmem => h.1 (mem_ids_erase hmem), ih h.2⟩

theorem normalizeEntry_id (e : WordEntry) (cid : String) (now : Nat) :
    (normalizeEntry e cid now).id = e.id := rfl

theorem normalizeEntry_now_irrel (e : WordEntry) (cid : String) (n1 n2 : Nat)
    (h : e.updatedAt.isSome) :
    normalizeEntry e cid n1 = normalizeEntry e cid n2 := by
  obtain ⟨t, ht⟩ := Option.isSome_iff_exists.mp h
  simp [normalizeEntry, ht]

theorem normalizeEntry_eq_self (e : WordEntry) (cid : String) (now : Nat)
    (h1 : e.updatedAt.isSome) (h2 : e.clientId.isSome) :
    normalizeEntry e cid now = e := by
  obtain ⟨t, ht⟩ := Option.isSome_iff_exists.mp h1
  obtain ⟨c, hc⟩ := Option.isSome_iff_exists.mp h2
  cases e
  simp_all [normalizeEntry]

/-! ## Branch lemmas for the merge loops -/

theorem processEntry_skip {cid since now acc} {e : WordEntry} (hid : e.id = "") :
    processEntry cid since now acc e = acc := by
  simp [processEntry, hid]

theorem processEntry_conflict {cid since now acc} {e ex : WordEntry}
    (hid : ¬ e.id = "") (hex : findEntry acc.state.entries e.id = some ex)
    (hc : isConcurrent since ex.updatedAt (normalizeEntry e cid now).updatedAt) :
    processEntry cid since now acc e =
      { acc with conflicts := acc.conflicts ++
          [⟨e.id, ConflictType.update, some (normalizeEntry e cid now), some ex⟩] } := by
  simp only [processEntry, if_neg hid, hex]
  rw [if_pos hc]

theorem processEntry_stale {cid since now acc} {e ex : WordEntry}
    (hid : ¬ e.id = "") (hex : findEntry acc.state.entries e.id = some ex)
    (hc : ¬ isConcurrent since ex.updatedAt (normalizeEntry e cid now).updatedAt)
    (hle : compareTimestamp (normalizeEntry e cid now).updatedAt ex.updatedAt ≤ 0) :
    processEntry cid since now acc e = acc := by
  simp only [processEntry, if_neg hid, hex]
  rw [if_neg hc, if_pos hle]

theorem processEntry_write_some {cid since now acc} {e ex : WordEntry}
    (hid : ¬ e.id = "") (hex : findEntry acc.state.entries e.id = some ex)
    (hc : ¬ isConcurrent since ex.updatedAt (normalizeEntry e cid now).updatedAt)
    (hgt : ¬ compareTimestamp (normalizeEntry e cid now).updatedAt ex.updatedAt ≤ 0) :
    processEntry cid since now acc e =
      ⟨⟨upsertEntry acc.state.entries (normalizeEntry e cid now),
        eraseTomb acc.state.tombs e.id⟩, acc.conflicts⟩ := by
  simp only [processEntry, if_neg hid, hex]
  rw [if_neg hc, if_neg hgt]

theorem processEntry_write_none {cid since now acc} {e : WordEntry}
    (hid : ¬ e.id = "") (hex : findEntry acc.state.entries e.id = none) :
    processEntry cid since now acc e =
      ⟨⟨upsertEntry acc.state.entries (normalizeEntry e cid now),
        eraseTomb acc.state.tombs e.id⟩, acc.conflicts⟩ := by
  simp only [processEntry, if_neg hid, hex]

theorem processDelete_skip {since now acc} {i : String} (hid : i = "") :
    processDelete since now acc i = acc := by
  simp [processDelete, hid]

theorem processDelete_missing {since now acc} {i : String} (hid : ¬ i = "")
    (hex : findEntry acc.state.entries i = none) :
    processDelete since now acc i = acc := by
  simp only [processDelete, if_neg hid, hex]

theorem processDelete_conflict {since now acc} {i : String} {ex : WordEntry}
    (hid : ¬ i = "") (hex : findEntry acc.state.entries i = some ex)
    (hcond : since.isSome ∧ 0 < compareTimestamp ex.updatedAt since) :
    processDelete since now acc i =
      { acc with conflicts := acc.conflicts ++
          [⟨i, ConflictType.delete, none, some ex⟩] } := by
  simp only [processDelete, if_neg hid, hex]
  rw [if_pos hcond]

theorem processDelete_del {since now acc} {i : String} {ex : WordEntry}
    (hid : ¬ i = "") (hex : findEntry acc.state.entries i = some ex)
    (hcond : ¬ (since.isSome ∧ 0 < compareTimestamp ex.updatedAt since)) :
    processDelete since now acc i =
      ⟨⟨eraseEntry acc.state.entries i, upsertTomb acc.state.tombs i now⟩,
        acc.conflicts⟩ := by
  simp only [processDelete, if_neg hid, hex]
  rw [if_neg hcond]

/-! ## Fixed points of the merge loops

An entry (resp. deleted id) is a *fixed point* of a server state when
processing it again changes nothing and re-emits at most a conflict that
was already emitted.  The idempotence proof shows that one full merge
turns every incoming entry and deleted id of the request into a fixed
point of the resulting state. -/

/-- Processing entry `e` against an entry collection `E` is a no-op
re-emitting at most a conflict from `C`. -/
def FixE (cid : String) (since : Option Nat) (now : Nat) (C : List Conflict)
    (E : List WordEntry) (e : WordEntry) : Prop :=
  e.id = "" ∨ ∃ ex, findEntry E e.id = some ex ∧
    ((isConcurrent since ex.updatedAt (normalizeEntry e cid now).updatedAt ∧
        (⟨e.id, ConflictType.update, some (normalizeEntry e cid now), some ex⟩ : Conflict) ∈ C) ∨
     (¬ isConcurrent since ex.updatedAt (normalizeEntry e cid now).updatedAt ∧
        compareTimestamp (normalizeEntry e cid now).updatedAt ex.updatedAt ≤ 0))

/-- Processing deleted id `i` against an entry collection `E` is a no-op
re-emitting at most a conflict from `C`. -/
def FixD (since : Option Nat) (C : List Conflict) (E : List WordEntry)
    (i : String) : Prop :=
  i = "" ∨ findEntry E i = none ∨
    ∃ ex, findEntry E i = some ex ∧ since.isSome ∧
      0 < compareTimestamp ex.updatedAt since ∧
      (⟨i, ConflictType.delete, none, some ex⟩ : Conflict) ∈ C

theorem FixE_mono {cid since now C C' E E' e}
    (h1 : findEntry E' e.id = findEntry E e.id) (h2 : ∀ c ∈ C, c ∈ C')
    (h : FixE cid since now C E e) : FixE cid since now C' E' e := by
  rcases h with h | ⟨ex, hex, hd⟩
  · exact Or.inl h
  · refine Or.inr ⟨ex, h1.trans hex, ?_⟩
    rcases hd with ⟨hc, hm⟩ | hd
    · exact Or.inl ⟨hc, h2 _ hm⟩
    · exact Or.inr hd

theorem FixD_mono {since C C' E E' i}
    (h1 : findEntry E' i = findEntry E i) (h2 : ∀ c ∈ C, c ∈ C')
    (h : FixD since C E i) : FixD since C' E' i := by
  rcases h with h | h | ⟨ex, hex, hs, hgt, hm⟩
  · exact Or.inl h
  · exact Or.inr (Or.inl (h1.trans h))
  · exact Or.inr (Or.inr ⟨ex, h1.trans hex, hs, hgt, h2 _ hm⟩)

theorem FixE_now {cid since n1 n2 C E e} (hts : e.updatedAt.isSome)
    (h : FixE cid since n1 C E e) : FixE cid since n2 C E e := by
  rw [FixE, normalizeEntry_now_irrel e cid n2 n1 hts]
  exact h

/-- A fixed entry is processed without touching the state, re-emitting at
most one conflict from `C`. -/
theorem processEntry_fixed {cid since now acc e C}
    (hfix : FixE cid since now C acc.state.entries e) :
    (processEntry cid since now acc e).state = acc.state ∧
    ((processEntry cid since now acc e).conflicts = acc.conflicts ∨
     ∃ c, (processEntry cid since now acc e).conflicts = acc.conflicts ++ [c] ∧ c ∈ C) := by
  by_cases hid : e.id = ""
  · rw [processEntry_skip hid]
    exact ⟨rfl, Or.inl rfl⟩
  rcases hfix with h | ⟨ex, hex, hd⟩
  · exact absurd h hid
  rcases hd with ⟨hc, hm⟩ | ⟨hc, hle⟩
  · rw [processEntry_conflict hid hex hc]
    exact ⟨rfl, Or.inr ⟨_, rfl, hm⟩⟩
  · rw [processEntry_stale hid hex hc hle]
    exact ⟨rfl, Or.inl rfl⟩

/-- A fixed deleted id is processed without touching the state,
re-emitting at most one conflict from `C`. -/
theorem processDelete_fixed {since now acc i C}
    (hfix : FixD since C acc.state.entries i) :
    (processDelete since now acc i).state = acc.state ∧
    ((processDelete since now acc i).conflicts = acc.conflicts ∨
     ∃ c, (processDelete since now acc i).conflicts = acc.conflicts ++ [c] ∧ c ∈ C) := by
  by_cases hid : i = ""
  · rw [processDelete_skip hid]
    exact ⟨rfl, Or.inl rfl⟩
  rcases hfix with h | h | ⟨ex, hex, hs, hgt, hm⟩
  · exact absurd h hid
  · rw [processDelete_missing hid h]
    exact ⟨rfl, Or.inl rfl⟩
  · rw [processDelete_conflict hid hex ⟨hs, hgt⟩]
    exact ⟨rfl, Or.inr ⟨_, rfl, hm⟩⟩

theorem compareTimestamp_neg (a b : Option Nat) :
    compareTimestamp a b = - compareTimestamp b a := by
  unfold compareTimestamp
  ring

/-- One entry-loop step preserves id uniqueness, keeps the emitted
conflicts, preserves fixed-point-ness of every previously processed
entry, and makes the processed entry itself a fixed point. -/
theorem processEntry_step_inv (cid : String) (since : Option Nat) (now : Nat)
    (acc : MergeAcc) (x : WordEntry) (hnd : idsNodup acc.state.entries) :
    idsNodup (processEntry cid since now acc x).state.entries ∧
    (∀ c ∈ acc.conflicts, c ∈ (processEntry cid since now acc x).conflicts) ∧
    (∀ e, FixE cid since now acc.conflicts acc.state.entries e →
      FixE cid since now (processEntry cid since now acc x).conflicts
        (processEntry cid since now acc x).state.entries e) ∧
    FixE cid since now (processEntry cid since now acc x).conflicts
      (processEntry cid since now acc x).state.entries x := by
  by_cases hid : x.id = ""
  · rw [processEntry_skip hid]
    exact ⟨hnd, fun c hc => hc, fun e h => h, Or.inl hid⟩
  cases hex : findEntry acc.state.entries x.id with
  | none =>
    rw [processEntry_write_none hid hex]
    refine ⟨idsNodup_upsert _ _ hnd, fun c hc => hc, ?_, ?_⟩
    · intro e he
      rcases he with h | ⟨ex, hexe, hd⟩
      · exact Or.inl h
      by_cases hee : e.id = x.id
      · rw [hee, hex] at hexe
        cases hexe
      · refine Or.inr ⟨ex, ?_, hd⟩
        rw [findEntry_upsert, normalizeEntry_id, if_neg (fun h => hee h.symm)]
        exact hexe
    · refine Or.inr ⟨normalizeEntry x cid now, ?_, Or.inr ⟨?_, ?_⟩⟩
      · rw [findEntry_upsert, normalizeEntry_id, if_pos rfl]
      · intro hc
        exact hc.2.2.2 rfl
      · rw [compareTimestamp_self]
  | some existing =>
    by_cases hconc : isConcurrent since existing.updatedAt
        (normalizeEntry x cid now).updatedAt
    · rw [processEntry_conflict hid hex hconc]
      refine ⟨hnd, fun c hc => List.mem_append_left _ hc, ?_, ?_⟩
      · intro e he
        exact FixE_mono rfl (fun c hc => List.mem_append_left _ hc) he
      · exact Or.inr ⟨existing, hex,
          Or.inl ⟨hconc, List.mem_append_right _ (List.mem_singleton.mpr rfl)⟩⟩
    · by_cases hle : compareTimestamp (normalizeEntry x cid now).updatedAt
          existing.updatedAt ≤ 0
      · rw [processEntry_stale hid hex hconc hle]
        exact ⟨hnd, fun c hc => hc, fun e he => he,
          Or.inr ⟨existing, hex, Or.inr ⟨hconc, hle⟩⟩⟩
      · rw [processEntry_write_some hid hex hconc hle]
        push_neg at hle
        refine ⟨idsNodup_upsert _ _ hnd, fun c hc => hc, ?_, ?_⟩
        · intro e he
          rcases he with h | ⟨ex, hexe, hd⟩
          · exact Or.inl h
          by_cases hee : e.id = x.id
          · rw [hee, hex] at hexe
            have hexeq : ex = existing := (Option.some.inj hexe).symm
            subst hexeq
            refine Or.inr ⟨normalizeEntry x cid now, ?_, Or.inr ⟨?_, ?_⟩⟩
            · rw [findEntry_upsert, normalizeEntry_id, if_pos hee.symm]
            · rcases hd with ⟨hcA, _⟩ | ⟨_, hleB⟩
              · exfalso
                apply hconc
                have t1 : compareTimestamp (normalizeEntry x cid now).updatedAt since =
                    compareTimestamp (normalizeEntry x cid now).updatedAt ex.updatedAt +
                      compareTimestamp ex.updatedAt since :=
                  compareTimestamp_telescope _ _ _
                exact ⟨hcA.1, hcA.2.1, by linarith [hcA.2.1], ne_of_cmp_pos hle⟩
              · intro hcc
                apply hconc
                have t2 : compareTimestamp ex.updatedAt since =
                    compareTimestamp ex.updatedAt (normalizeEntry e cid now).updatedAt +
                      compareTimestamp (normalizeEntry e cid now).updatedAt since :=
                  compareTimestamp_telescope _ _ _
                have t3 : compareTimestamp ex.updatedAt (normalizeEntry e cid now).updatedAt =
                    - compareTimestamp (normalizeEntry e cid now).updatedAt ex.updatedAt :=
                  compareTimestamp_neg _ _
                exact ⟨hcc.1, by linarith [hcc.2.2.1], hcc.2.1, ne_of_cmp_pos hle⟩
            · rcases hd with ⟨hcA, _⟩ | ⟨_, hleB⟩
              · exfalso
                apply hconc
                have t1 : compareTimestamp (normalizeEntry x cid now).updatedAt since =
                    compareTimestamp (normalizeEntry x cid now).updatedAt ex.updatedAt +
                      compareTimestamp ex.updatedAt since :=
                  compareTimestamp_telescope _ _ _
                exact ⟨hcA.1, hcA.2.1, by linarith [hcA.2.1], ne_of_cmp_pos hle⟩
              · have t4 : compareTimestamp (normalizeEntry e cid now).updatedAt
                    (normalizeEntry x cid now).updatedAt =
                    compareTimestamp (normalizeEntry e cid now).updatedAt ex.updatedAt +
                      compareTimestamp ex.updatedAt (normalizeEntry x cid now).updatedAt :=
                  compareTimestamp_telescope _ _ _
                have t5 : compareTimestamp ex.updatedAt (normalizeEntry x cid now).updatedAt =
                    - compareTimestamp (normalizeEntry x cid now).updatedAt ex.updatedAt :=
                  compareTimestamp_neg _ _
                linarith
          · refine Or.inr ⟨ex, ?_, hd⟩
            rw [findEntry_upsert, normalizeEntry_id, if_neg (fun h => hee h.symm)]
            exact hexe
        · refine Or.inr ⟨normalizeEntry x cid now, ?_, Or.inr ⟨?_, ?_⟩⟩
          · rw [findEntry_upsert, normalizeEntry_id, if_pos rfl]
          · intro hc
            exact hc.2.2.2 rfl
          · rw [compareTimestamp_self]

/-- One deletion-loop step preserves id uniqueness, keeps the emitted
conflicts, leaves lookups of other ids unchanged, preserves
fixed-point-ness of every previously processed id, and makes the
processed id itself a fixed point. -/
theorem processDelete_step_inv (since : Option Nat) (now : Nat)
    (acc : MergeAcc) (d : String) (hnd : idsNodup acc.state.entries) :
    idsNodup (processDelete since now acc d).state.entries ∧
    (∀ c ∈ acc.conflicts, c ∈ (processDelete since now acc d).conflicts) ∧
    (∀ j, j ≠ d → findEntry (processDelete since now acc d).state.entries j =
      findEntry acc.state.entries j) ∧
    (∀ i, FixD since acc.conflicts acc.state.entries i →
      FixD since (processDelete since now acc d).conflicts
        (processDelete since now acc d).state.entries i) ∧
    FixD since (processDelete since now acc d).conflicts
      (processDelete since now acc d).state.entries d := by
  by_cases hid : d = ""
  · rw [processDelete_skip hid]
    exact ⟨hnd, fun c hc => hc, fun j _ => rfl, fun i h => h, Or.inl hid⟩
  cases hex : findEntry acc.state.entries d with
  | none =>
    rw [processDelete_missing hid hex]
    exact ⟨hnd, fun c hc => hc, fun j _ => rfl, fun i h => h, Or.inr (Or.inl hex)⟩
  | some existing =>
    by_cases hcond : since.isSome ∧ 0 < compareTimestamp existing.updatedAt since
    · rw [processDelete_conflict hid hex hcond]
      refine ⟨hnd, fun c hc => List.mem_append_left _ hc, fun j _ => rfl, ?_, ?_⟩
      · intro i h
        exact FixD_mono rfl (fun c hc => List.mem_append_left _ hc) h
      · exact Or.inr (Or.inr ⟨existing, hex, hcond.1, hcond.2,
          List.mem_append_right _ (List.mem_singleton.mpr rfl)⟩)
    · rw [processDelete_del hid hex hcond]
      refine ⟨idsNodup_erase _ _ hnd, fun c hc => hc,
        fun j hj => findEntry_erase_ne _ _ hj _, ?_, ?_⟩
      · intro i h
        rcases h with h | h | ⟨ex, hexi, hs, hgt, hm⟩
        · exact Or.inl h
        · by_cases hie : i = d
          · subst hie
            exact Or.inr (Or.inl (findEntry_erase_self _ _ hnd))
          · exact Or.inr (Or.inl ((findEntry_erase_ne _ _ hie _).trans h))
        · by_cases hie : i = d
          · subst hie
            exact Or.inr (Or.inl (findEntry_erase_self _ _ hnd))
          · exact Or.inr (Or.inr ⟨ex, (findEntry_erase_ne _ _ hie _).trans hexi,
              hs, hgt, hm⟩)
      · exact Or.inr (Or.inl (findEntry_erase_self _ _ hnd))

/-- Folding the entry loop over a list of fixed entries leaves the state
unchanged and emits only conflicts from `C`. -/
theorem foldE_fixed (cid : String) (since : Option Nat) (now : Nat)
    (C : List Conflict) : ∀ (es : List WordEntry) (acc : MergeAcc),
    (∀ e ∈ es, FixE cid since now C acc.state.entries e) →
    ((es.foldl (processEntry cid since now) acc).state = acc.state ∧
     ∀ c ∈ (es.foldl (processEntry cid since now) acc).conflicts,
       c ∈ acc.conflicts ∨ c ∈ C) := by
  intro es
  induction es with
  | nil => exact fun acc _ => ⟨rfl, fun c hc => Or.inl hc⟩
  | cons e es ih =>
    intro acc hfix
    obtain ⟨hst, hcf⟩ := processEntry_fixed (hfix e (List.mem_cons_self e es))
    have hfix' : ∀ x ∈ es, FixE cid since now C
        (processEntry cid since now acc e).state.entries x := by
      intro x hx
      rw [hst]
      exact hfix x (List.mem_cons_of_mem e hx)
    obtain ⟨ihst, ihcf⟩ := ih (processEntry cid since now acc e) hfix'
    refine ⟨by rw [List.foldl_cons, ihst, hst], ?_⟩
    intro c hc
    rcases ihcf c (by rwa [List.foldl_cons] at hc) with hc' | hc'
    · rcases hcf with hcf | ⟨c', hcf, hc'mem⟩
      · exact Or.inl (hcf ▸ hc')
      · rw [hcf, List.mem_append, List.mem_singleton] at hc'
        rcases hc' with hc' | hc'
        · exact Or.inl hc'
        · exact Or.inr (hc' ▸ hc'mem)
    · exact Or.inr hc'

/-- Folding the deletion loop over a list of fixed ids leaves the state
unchanged and emits only conflicts from `C`. -/
theorem foldD_fixed (since : Option Nat) (now : Nat)
    (C : List Conflict) : ∀ (ds : List String) (acc : MergeAcc),
    (∀ i ∈ ds, FixD since C acc.state.entries i) →
    ((ds.foldl (processDelete since now) acc).state = acc.state ∧
     ∀ c ∈ (ds.foldl (processDelete since now) acc).conflicts,
       c ∈ acc.conflicts ∨ c ∈ C) := by
  intro ds
  induction ds with
  | nil => exact fun acc _ => ⟨rfl, fun c hc => Or.inl hc⟩
  | cons i ds ih =>
    intro acc hfix
    obtain ⟨hst, hcf⟩ := processDelete_fixed (hfix i (List.mem_cons_self i ds))
    have hfix' : ∀ x ∈ ds, FixD since C
        (processDelete since now acc i).state.entries x := by
      intro x hx
      rw [hst]
      exact hfix x (List.mem_cons_of_mem i hx)
    obtain ⟨ihst, ihcf⟩ := ih (processDelete since now acc i) hfix'
    refine ⟨by rw [List.foldl_cons, ihst, hst], ?_⟩
    intro c hc
    rcases ihcf c (by rwa [List.foldl_cons] at hc) with hc' | hc'
    · rcases hcf with hcf | ⟨c', hcf, hc'mem⟩
      · exact Or.inl (hcf ▸ hc')
      · rw [hcf, List.mem_append, List.mem_singleton] at hc'
        rcases hc' with hc' | hc'
        · exact Or.inl hc'
        · exact Or.inr (hc' ▸ hc'mem)
    · exact Or.inr hc'

/-- Running the whole entry loop turns every processed entry into a fixed
point of the resulting accumulator, preserving id uniqueness and the
conflicts emitted so far. -/
theorem entryPhase_inv (cid : String) (since : Option Nat) (now : Nat) :
    ∀ (es done : List WordEntry) (acc : MergeAcc),
    idsNodup acc.state.entries →
    (∀ e ∈ done, FixE cid since now acc.conflicts acc.state.entries e) →
    (idsNodup (es.foldl (processEntry cid since now) acc).state.entries ∧
     (∀ c ∈ acc.conflicts, c ∈ (es.foldl (processEntry cid since now) acc).conflicts) ∧
     (∀ e, e ∈ done ∨ e ∈ es →
       FixE cid since now (es.foldl (processEntry cid since now) acc).conflicts
         (es.foldl (processEntry cid since now) acc).state.entries e)) := by
  intro es
  induction es with
  | nil =>
    intro done acc hnd hdone
    refine ⟨hnd, fun c hc => hc, fun e he => ?_⟩
    rcases he with he | he
    · exact hdone e he
    · cases he
  | cons x es ih =>
    intro done acc hnd hdone
    obtain ⟨nd', cmono', pres', fixx'⟩ := processEntry_step_inv cid since now acc x hnd
    have hdone' : ∀ e ∈ x :: done,
        FixE cid since now (processEntry cid since now acc x).conflicts
          (processEntry cid since now acc x).state.entries e := by
      intro e he
      rcases List.mem_cons.mp he with he | he
      · exact he ▸ fixx'
      · exact pres' e (hdone e he)
    obtain ⟨ndf, cmonof, fixf⟩ := ih (x :: done) (processEntry cid since now acc x) nd' hdone'
    rw [List.foldl_cons]
    refine ⟨ndf, fun c hc => cmonof c (cmono' c hc), fun e he => ?_⟩
    rcases he with he | he
    · exact fixf e (Or.inl (List.mem_cons_of_mem x he))
    · rcases List.mem_cons.mp he with he | he
      · exact fixf e (Or.inl (he ▸ List.mem_cons_self x done))
      · exact fixf e (Or.inr he)

/-- Running the whole deletion loop turns every processed id into a fixed
point of the resulting accumulator, preserving id uniqueness, the
conflicts emitted so far, and the lookups of ids it does not delete. -/
theorem deletePhase_inv (since : Option Nat) (now : Nat) :
    ∀ (ds done : List String) (acc : MergeAcc),
    idsNodup acc.state.entries →
    (∀ i ∈ done, FixD since acc.conflicts acc.state.entries i) →
    (idsNodup (ds.foldl (processDelete since now) acc).state.entries ∧
     (∀ c ∈ acc.conflicts, c ∈ (ds.foldl (processDelete since now) acc).conflicts) ∧
     (∀ j, j ∉ ds → findEntry (ds.foldl (processDelete since now) acc).state.entries j =
       findEntry acc.state.entries j) ∧
     (∀ i, i ∈ done ∨ i ∈ ds →
       FixD since (ds.foldl (processDelete since now) acc).conflicts
         (ds.foldl (processDelete since now) acc).state.entries i)) := by
  intro ds
  induction ds with
  | nil =>
    intro done acc hnd hdone
    refine ⟨hnd, fun c hc => hc, fun j _ => rfl, fun i hi => ?_⟩
    rcases hi with hi | hi
    · exact hdone i hi
    · cases hi
  | cons d ds ih =>
    intro done acc hnd hdone
    obtain ⟨nd', cmono', look', pres', fixd'⟩ := processDelete_step_inv since now acc d hnd
    have hdone' : ∀ i ∈ d :: done,
        FixD since (processDelete since now acc d).conflicts
          (processDelete since now acc d).state.entries i := by
      intro i hi
      rcases List.mem_cons.mp hi with hi | hi
      · exact hi ▸ fixd'
      · exact pres' i (hdone i hi)
    obtain ⟨ndf, cmonof, lookf, fixf⟩ := ih (d :: done) (processDelete since now acc d) nd' hdone'
    rw [List.foldl_cons]
    refine ⟨ndf, fun c hc => cmonof c (cmono' c hc), fun j hj => ?_, fun i hi => ?_⟩
    · have hjd : j ≠ d := fun h => hj (h ▸ List.mem_cons_self d ds)
      have hjds : j ∉ ds := fun h => hj (List.mem_cons_of_mem d h)
      exact (lookf j hjds).trans (look' j hjd)
    · rcases hi with hi | hi
      · exact fixf i (Or.inl (List.mem_cons_of_mem d hi))
      · rcases List.mem_cons.mp hi with hi | hi
        · exact fixf i (Or.inl (hi ▸ List.mem_cons_self d done))
        · exact fixf i (Or.inr hi)

/-! ## Claim C3: idempotence of replaying a sync request -/

/-- C3, counterexample: replaying an identical sync request is *not*
idempotent in general.  A request whose single entry carries no
`updatedAt` is stamped with the server's clock on each merge, so the
replay (at a later wall-clock reading) overwrites the stored record with
a fresh timestamp: the entries collection changes. -/
theorem sync_replay_not_idempotent_counterexample :
    (mergeSync (mergeSync ⟨[], []⟩
        ⟨"A", none, [⟨"a", none, none, none, none, 0⟩], []⟩ 1).1
        ⟨"A", none, [⟨"a", none, none, none, none, 0⟩], []⟩ 2).1 ≠
      (mergeSync ⟨[], []⟩
        ⟨"A", none, [⟨"a", none, none, none, none, 0⟩], []⟩ 1).1 := by
  decide

/-- C3 (amended): replaying an identical sync request (same `entries`,
`deletedIds`, `since`) against the server state produced by a first merge
of that request leaves the server's entries and tombstone collections
unchanged and produces only conflicts the first merge already produced —
provided every incoming entry carries an `updatedAt` and no incoming
entry's id also occurs in `deletedIds` (the counterexample shows both
provisos necessary: entries stamped server-side and ids deleted right
after their own upsert pick up a fresh wall-clock reading on each
replay).  `idsNodup` is the id uniqueness a Mongo collection guarantees
for its `_id` key. -/
theorem sync_replay_idempotent (s0 : ServerState) (req : SyncRequest)
    (now1 now2 : Nat) (hnd : idsNodup s0.entries)
    (hts : ∀ e ∈ req.entries, e.updatedAt.isSome)
    (hdisj : ∀ e ∈ req.entries, e.id ∉ req.deletedIds) :
    (mergeSync (mergeSync s0 req now1).1 req now2).1 = (mergeSync s0 req now1).1 ∧
    ∀ c ∈ (mergeSync (mergeSync s0 req now1).1 req now2).2.conflicts,
      c ∈ (mergeSync s0 req now1).2.conflicts := by
  obtain ⟨cid, since, es, ds⟩ := req
  obtain ⟨ndE, _, fixE⟩ := entryPhase_inv cid since now1 es [] ⟨s0, []⟩ hnd
    (by intro e he; cases he)
  obtain ⟨nd1, cmono1, look1, fixD1⟩ := deletePhase_inv since now1 ds []
    (es.foldl (processEntry cid since now1) ⟨s0, []⟩) ndE (by intro i hi; cases hi)
  have hts' : ∀ e ∈ es, e.updatedAt.isSome := hts
  have hdisj' : ∀ e ∈ es, e.id ∉ ds := hdisj
  set acc1 := ds.foldl (processDelete since now1)
    (es.foldl (processEntry cid since now1) ⟨s0, []⟩) with hacc1
  have fixE2 : ∀ e ∈ es, FixE cid since now2 acc1.conflicts acc1.state.entries e := by
    intro e he
    exact FixE_now (hts' e he)
      (FixE_mono (look1 e.id (hdisj' e he)) cmono1 (fixE e (Or.inr he)))
  obtain ⟨st2E, cf2E⟩ := foldE_fixed cid since now2 acc1.conflicts es
    ⟨acc1.state, []⟩ (by intro e he; exact fixE2 e he)
  obtain ⟨st2D, cf2D⟩ := foldD_fixed since now2 acc1.conflicts ds
    (es.foldl (processEntry cid since now2) ⟨acc1.state, []⟩)
    (by intro i hi; rw [st2E]; exact fixD1 i (Or.inr hi))
  constructor
  · show (ds.foldl (processDelete since now2)
        (es.foldl (processEntry cid since now2) ⟨acc1.state, []⟩)).state = acc1.state
    rw [st2D, st2E]
  · intro c hc
    have hc' : c ∈ (ds.foldl (processDelete since now2)
        (es.foldl (processEntry cid since now2) ⟨acc1.state, []⟩)).conflicts := hc
    rcases cf2D c hc' with h | h
    · rcases cf2E c h with h' | h'
      · cases h'
      · exact h'
    · exact h

/-- C3, witness for the amended theorem: a concrete replayed request (one
entry with an `updatedAt`, one unrelated deleted id) leaves the merged
state unchanged and re-emits no new conflict. -/
theorem sync_replay_idempotent_witness :
    (mergeSync (mergeSync ⟨[⟨"b", some 3, some "B", none, none, 5⟩], []⟩
        ⟨"A", some 1, [⟨"a", some 4, some "A", none, none, 0⟩], ["b"]⟩ 6).1
        ⟨"A", some 1, [⟨"a", some 4, some "A", none, none, 0⟩], ["b"]⟩ 7).1 =
      (mergeSync ⟨[⟨"b", some 3, some "B", none, none, 5⟩], []⟩
        ⟨"A", some 1, [⟨"a", some 4, some "A", none, none, 0⟩], ["b"]⟩ 6).1 :=
  (sync_replay_idempotent ⟨[⟨"b", some 3, some "B", none, none, 5⟩], []⟩
    ⟨"A", some 1, [⟨"a", some 4, some "A", none, none, 0⟩], ["b"]⟩ 6 7
    (by unfold idsNodup; decide) (by decide) (by decide)).1

/-! ## Claim C1: update-conflict detection -/

/-- C1: for an incoming entry (carrying its own `updatedAt` and
`clientId`) whose id already has a server record, the merge loop emits
`Conflict{id, update, local := incoming, remote := existing}` and leaves
the state unchanged exactly when `since` is set, `existing.updatedAt >
since`, `incoming.updatedAt > since`, and the two `updatedAt` differ.
Consequently (second conjunct), when the server holds device A's update
at `t1` and device B syncs an update at `t2 > t1` with watermark
`since < t1`, B receives the type-update conflict and its write is not
applied. -/
theorem update_conflict_characterization :
    (∀ (cid : String) (since : Option Nat) (now : Nat) (acc : MergeAcc) (e ex : WordEntry),
      e.id ≠ "" → findEntry acc.state.entries e.id = some ex →
      e.updatedAt.isSome → e.clientId.isSome →
      (((processEntry cid since now acc e).state = acc.state ∧
        (processEntry cid since now acc e).conflicts = acc.conflicts ++
          [⟨e.id, ConflictType.update, some e, some ex⟩]) ↔
       (since.isSome ∧ 0 < compareTimestamp ex.updatedAt since ∧
        0 < compareTimestamp e.updatedAt since ∧ e.updatedAt ≠ ex.updatedAt))) ∧
    (∀ (s : ServerState) (X eB : WordEntry) (cidB : String) (s0 t1 t2 now : Nat),
      findEntry s.entries eB.id = some X → X.updatedAt = some t1 →
      eB.id ≠ "" → eB.updatedAt = some t2 → eB.clientId.isSome →
      s0 < t1 → t1 < t2 →
      ((⟨eB.id, ConflictType.update, some eB, some X⟩ : Conflict) ∈
        (mergeSync s ⟨cidB, some s0, [eB], []⟩ now).2.conflicts ∧
       findEntry (mergeSync s ⟨cidB, some s0, [eB], []⟩ now).1.entries eB.id = some X)) := by
  constructor
  · intro cid since now acc e ex hid hex hu hc
    have hnorm : normalizeEntry e cid now = e := normalizeEntry_eq_self e cid now hu hc
    constructor
    · intro ⟨_, hcf⟩
      by_cases hconc : isConcurrent since ex.updatedAt (normalizeEntry e cid now).updatedAt
      · rw [hnorm] at hconc
        exact hconc
      · exfalso
        by_cases hle : compareTimestamp (normalizeEntry e cid now).updatedAt
            ex.updatedAt ≤ 0
        · rw [processEntry_stale hid hex hconc hle] at hcf
          simpa using congrArg List.length hcf
        · rw [processEntry_write_some hid hex hconc hle] at hcf
          simpa using congrArg List.length hcf
    · intro hrhs
      have hconc : isConcurrent since ex.updatedAt
          (normalizeEntry e cid now).updatedAt := by
        rw [hnorm]
        exact hrhs
      rw [processEntry_conflict hid hex hconc]
      exact ⟨rfl, by rw [hnorm]⟩
  · intro s X eB cidB s0 t1 t2 now hfind ht1 hid ht2 hcB hs0t1 ht1t2
    have hu : eB.updatedAt.isSome := by rw [ht2]; rfl
    have hnorm : normalizeEntry eB cidB now = eB := normalizeEntry_eq_self eB cidB now hu hcB
    have hconc : isConcurrent (some s0) X.updatedAt
        (normalizeEntry eB cidB now).updatedAt := by
      rw [hnorm, ht1, ht2]
      refine ⟨rfl, ?_, ?_, ?_⟩
      · simp only [compareTimestamp, tsVal]
        omega
      · simp only [compareTimestamp, tsVal]
        omega
      · intro h
        have := Option.some.inj h
        omega
    have hstep : processEntry cidB (some s0) now ⟨s, []⟩ eB =
        ⟨s, [⟨eB.id, ConflictType.update, some (normalizeEntry eB cidB now), some X⟩]⟩ := by
      rw [processEntry_conflict hid hfind hconc]
      rfl
    constructor
    · show (⟨eB.id, ConflictType.update, some eB, some X⟩ : Conflict) ∈
        (List.foldl (processDelete (some s0) now)
          (List.foldl (processEntry cidB (some s0) now) ⟨s, []⟩ [eB]) []).conflicts
      rw [List.foldl_cons, List.foldl_nil, List.foldl_nil, hstep, hnorm]
      exact List.mem_singleton.mpr rfl
    · show findEntry (List.foldl (processDelete (some s0) now)
          (List.foldl (processEntry cidB (some s0) now) ⟨s, []⟩ [eB]) []).state.entries
        eB.id = some X
      rw [List.foldl_cons, List.foldl_nil, List.foldl_nil, hstep]
      exact hfind

/-- C1, witness: a concrete concurrent update (`since = 2`, existing at 5,
incoming at 7) is reported as an update conflict and the stored record is
untouched. -/
theorem update_conflict_characterization_witness :
    (processEntry "B" (some 2) 20
        ⟨⟨[⟨"x", some 5, some "A", none, none, 1⟩], []⟩, []⟩
        ⟨"x", some 7, some "B", none, none, 2⟩).state =
      ⟨[⟨"x", some 5, some "A", none, none, 1⟩], []⟩ ∧
    (processEntry "B" (some 2) 20
        ⟨⟨[⟨"x", some 5, some "A", none, none, 1⟩], []⟩, []⟩
        ⟨"x", some 7, some "B", none, none, 2⟩).conflicts =
      [] ++ [⟨"x", ConflictType.update,
        some ⟨"x", some 7, some "B", none, none, 2⟩,
        some ⟨"x", some 5, some "A", none, none, 1⟩⟩] :=
  (update_conflict_characterization.1 "B" (some 2) 20
    ⟨⟨[⟨"x", some 5, some "A", none, none, 1⟩], []⟩, []⟩
    ⟨"x", some 7, some "B", none, none, 2⟩
    ⟨"x", some 5, some "A", none, none, 1⟩
    (by decide) (by decide) (by decide) (by decide)).mpr (by decide)

/-! ## Claim C2: deletion handling -/

/-- C2: for an incoming deleted id: with no server record the request is a
no-op for it; when the record changed strictly after a set watermark the
server emits `Conflict{id, delete, local := null, remote := existing}`
and does not delete; otherwise it deletes the record and writes/refreshes
a tombstone with `deletedAt` set to the current time.  The second
conjunct instantiates this to the deletion-vs-concurrent-edit scenario:
a record edited at `t2 > since` survives a deletion request and yields a
type-delete conflict. -/
theorem delete_merge_characterization :
    (∀ (since : Option Nat) (now : Nat) (acc : MergeAcc) (i : String), i ≠ "" →
      (findEntry acc.state.entries i = none → processDelete since now acc i = acc) ∧
      (∀ ex, findEntry acc.state.entries i = some ex →
        ((since.isSome ∧ 0 < compareTimestamp ex.updatedAt since) →
          processDelete since now acc i =
            { acc with conflicts := acc.conflicts ++
                [⟨i, ConflictType.delete, none, some ex⟩] }) ∧
        (¬ (since.isSome ∧ 0 < compareTimestamp ex.updatedAt since) →
          processDelete since now acc i =
            ⟨⟨eraseEntry acc.state.entries i, upsertTomb acc.state.tombs i now⟩,
              acc.conflicts⟩))) ∧
    (∀ (s : ServerState) (Y : WordEntry) (cid : String) (s0 t2 now : Nat),
      findEntry s.entries Y.id = some Y → Y.updatedAt = some t2 →
      Y.id ≠ "" → s0 < t2 →
      ((⟨Y.id, ConflictType.delete, none, some Y⟩ : Conflict) ∈
        (mergeSync s ⟨cid, some s0, [], [Y.id]⟩ now).2.conflicts ∧
       findEntry (mergeSync s ⟨cid, some s0, [], [Y.id]⟩ now).1.entries Y.id = some Y)) := by
  constructor
  · intro since now acc i hid
    refine ⟨fun hnone => processDelete_missing hid hnone, fun ex hex => ⟨?_, ?_⟩⟩
    · intro hcond
      exact processDelete_conflict hid hex hcond
    · intro hcond
      exact processDelete_del hid hex hcond
  · intro s Y cid s0 t2 now hfind ht2 hid hs0t2
    have hcond : (some s0 : Option Nat).isSome ∧
        0 < compareTimestamp Y.updatedAt (some s0) := by
      refine ⟨rfl, ?_⟩
      rw [ht2]
      simp only [compareTimestamp, tsVal]
      omega
    have hstep : processDelete (some s0) now ⟨s, []⟩ Y.id =
        ⟨s, [⟨Y.id, ConflictType.delete, none, some Y⟩]⟩ := by
      rw [processDelete_conflict hid hfind hcond]
      rfl
    constructor
    · show (⟨Y.id, ConflictType.delete, none, some Y⟩ : Conflict) ∈
        (List.foldl (processDelete (some s0) now)
          (List.foldl (processEntry cid (some s0) now) ⟨s, []⟩ []) [Y.id]).conflicts
      rw [List.foldl_nil, List.foldl_cons, List.foldl_nil, hstep]
      exact List.mem_singleton.mpr rfl
    · show findEntry (List.foldl (processDelete (some s0) now)
          (List.foldl (processEntry cid (some s0) now) ⟨s, []⟩ []) [Y.id]).state.entries
        Y.id = some Y
      rw [List.foldl_nil, List.foldl_cons, List.foldl_nil, hstep]
      exact hfind

/-- C2, witness: with `since = 2` and a record last updated at 5, a
deletion request for it yields the delete conflict and keeps the
record. -/
theorem delete_merge_characterization_witness :
    processDelete (some 2) 20 ⟨⟨[⟨"y", some 5, some "B", none, none, 3⟩], []⟩, []⟩ "y" =
      ⟨⟨[⟨"y", some 5, some "B", none, none, 3⟩], []⟩,
        [] ++ [⟨"y", ConflictType.delete, none,
          some ⟨"y", some 5, some "B", none, none, 3⟩⟩]⟩ :=
  (((delete_merge_characterization.1 (some 2) 20
      ⟨⟨[⟨"y", some 5, some "B", none, none, 3⟩], []⟩, []⟩ "y" (by decide)).2
    ⟨"y", some 5, some "B", none, none, 3⟩ (by decide)).1 (by decide))

/-! ## Claim C7: response construction -/

/-- C7: the response of a merge carries the merge-time clock as
`serverTime`; with no watermark it returns all post-merge entries and no
tombstone ids; with watermark `sn` it returns exactly the post-merge
entries whose `updatedAt` is present and strictly greater than `sn`, and
exactly the ids of tombstones whose `deletedAt` is strictly greater than
`sn`. -/
theorem response_construction (s : ServerState) (req : SyncRequest) (now : Nat) :
    (mergeSync s req now).2.serverTime = now ∧
    (req.since = none →
      (mergeSync s req now).2.entries = (mergeSync s req now).1.entries ∧
      (mergeSync s req now).2.deletedIds = []) ∧
    (∀ sn, req.since = some sn →
      ((∀ r, r ∈ (mergeSync s req now).2.entries ↔
         (r ∈ (mergeSync s req now).1.entries ∧ ∃ u, r.updatedAt = some u ∧ sn < u)) ∧
       (∀ i, i ∈ (mergeSync s req now).2.deletedIds ↔
         ∃ t, t ∈ (mergeSync s req now).1.tombs ∧ t.id = i ∧ sn < t.deletedAt))) := by
  obtain ⟨cid, since, es, ds⟩ := req
  refine ⟨rfl, ?_, ?_⟩
  · intro h
    have h' : since = none := h
    subst h'
    exact ⟨rfl, rfl⟩
  · intro sn h
    have h' : since = some sn := h
    subst h'
    constructor
    · intro r
      simp only [mergeSync, List.mem_filter]
      constructor
      · rintro ⟨hm, hp⟩
        refine ⟨hm, ?_⟩
        cases hr : r.updatedAt with
        | none => rw [hr] at hp; cases hp
        | some u =>
          rw [hr] at hp
          exact ⟨u, rfl, by simpa using hp⟩
      · rintro ⟨hm, u, hu, hlt⟩
        refine ⟨hm, ?_⟩
        rw [hu]
        simpa using hlt
    · intro i
      simp only [mergeSync, List.mem_map, List.mem_filter]
      constructor
      · rintro ⟨t, ⟨ht, hq⟩, hid⟩
        exact ⟨t, ht, hid, by simpa using hq⟩
      · rintro ⟨t, ht, hid, hlt⟩
        exact ⟨t, ⟨ht, by simpa using hlt⟩, hid⟩

/-- C7, witness: with watermark 2, a tombstone deleted at 3 is reported
in `deletedIds`, and `serverTime` is the merge-time clock. -/
theorem response_construction_witness :
    "b" ∈ (mergeSync ⟨[⟨"a", some 4, some "A", none, none, 1⟩], [⟨"b", 3⟩]⟩
        ⟨"A", some 2, [], []⟩ 9).2.deletedIds ∧
    (mergeSync ⟨[⟨"a", some 4, some "A", none, none, 1⟩], [⟨"b", 3⟩]⟩
        ⟨"A", some 2, [], []⟩ 9).2.serverTime = 9 :=
  ⟨(((response_construction ⟨[⟨"a", some 4, some "A", none, none, 1⟩], [⟨"b", 3⟩]⟩
        ⟨"A", some 2, [], []⟩ 9).2.2 2 rfl).2 "b").mpr
      ⟨⟨"b", 3⟩, by decide, rfl, by decide⟩,
   (response_construction ⟨[⟨"a", some 4, some "A", none, none, 1⟩], [⟨"b", 3⟩]⟩
        ⟨"A", some 2, [], []⟩ 9).1⟩

/-! ## Claim C10: falsy incoming ids are skipped -/

/-- C10: an incoming entry whose id is falsy (missing, null or empty,
collapsed to `""` in the embedding) is skipped by the server: the merge
of a request containing it — state, conflicts and response alike — is
identical to the merge of the request without it, the rest still being
processed (and the handler still answering 200). -/
theorem falsy_id_entry_skipped (s : ServerState) (cid : String) (since : Option Nat)
    (now : Nat) (es1 es2 : List WordEntry) (e : WordEntry) (ds : List String)
    (hid : e.id = "") :
    mergeSync s ⟨cid, since, es1 ++ e :: es2, ds⟩ now =
      mergeSync s ⟨cid, since, es1 ++ es2, ds⟩ now := by
  have hfold : ∀ acc : MergeAcc,
      (es1 ++ e :: es2).foldl (processEntry cid since now) acc =
        (es1 ++ es2).foldl (processEntry cid since now) acc := by
    intro acc
    rw [List.foldl_append, List.foldl_append, List.foldl_cons, processEntry_skip hid]
  simp only [mergeSync]
  rw [hfold]

/-- C10, witness: a request led by an id-less entry merges exactly like
the request without it. -/
theorem falsy_id_entry_skipped_witness :
    mergeSync ⟨[], []⟩ ⟨"A", none,
        [⟨"", some 3, some "A", none, none, 9⟩, ⟨"a", some 4, some "A", none, none, 1⟩],
        []⟩ 5 =
      mergeSync ⟨[], []⟩ ⟨"A", none, [⟨"a", some 4, some "A", none, none, 1⟩], []⟩ 5 :=
  falsy_id_entry_skipped ⟨[], []⟩ "A" none 5 []
    [⟨"a", some 4, some "A", none, none, 1⟩] ⟨"", some 3, some "A", none, none, 9⟩ [] rfl

/-! ## Claim C6: failed cycles do not advance sync state -/

/-- C6: a non-success HTTP status makes the sync cycle abort with an
error, and any error outcome carries the persisted Sync State (clientId,
lastSyncAt, pendingDeletedIds) exactly as it was before the cycle, so a
retry next cycle resends the same delta. -/
theorem failed_cycle_preserves_sync_state (cs : ClientState) (status : Nat)
    (body : SyncResponseJson) (now : Nat)
    (hs : ¬ (200 ≤ status ∧ status < 300)) :
    syncFromRemote cs status body now =
      Except.error ⟨ensureLocalMetadata cs.entries cs.syncState.clientId now,
        cs.syncState⟩ ∧
    ∀ csF, syncFromRemote cs status body now = Except.error csF →
      csF.syncState = cs.syncState := by
  have herr : syncFromRemote cs status body now =
      Except.error ⟨ensureLocalMetadata cs.entries cs.syncState.clientId now,
        cs.syncState⟩ := by
    unfold syncFromRemote
    rw [if_neg hs]
  refine ⟨herr, fun csF h => ?_⟩
  rw [herr] at h
  cases h
  rfl

/-- C6, witness: a 500 response leaves a concrete sync state untouched. -/
theorem failed_cycle_preserves_sync_state_witness :
    syncFromRemote ⟨[], ⟨"A", some 5, ["p"]⟩⟩ 500 ⟨[], [], some 3, []⟩ 9 =
      Except.error ⟨[], ⟨"A", some 5, ["p"]⟩⟩ :=
  (failed_cycle_preserves_sync_state ⟨[], ⟨"A", some 5, ["p"]⟩⟩ 500
    ⟨[], [], some 3, []⟩ 9 (by decide)).1

/-! ## Claim C4: the watermark after a successful cycle -/

/-- C4, counterexample: the claimed unconditional monotonicity fails.  A
successful cycle whose response carries `serverTime = 3` against a state
whose `lastSyncAt` was 5 persists `lastSyncAt = 3 < 5`: `lastSyncAt`
equals `serverTime` but is **not** ≥ its previous value (nothing in
`syncFromRemote` guards against a server clock behind the watermark). -/
theorem watermark_monotonicity_counterexample :
    syncFromRemote ⟨[], ⟨"A", some 5, []⟩⟩ 200 ⟨[], [], some 3, []⟩ 9 =
      Except.ok ⟨[], ⟨"A", some 3, []⟩⟩ ∧ (3 : Nat) < 5 := by
  exact ⟨rfl, by decide⟩

/-- C4 (amended): after a successful cycle whose response carries a
`serverTime`, the persisted `lastSyncAt` equals that `serverTime` (the
local clock `now` plays no role — it is used only when the response lacks
`serverTime`), and `lastSyncAt` is ≥ its previous value whenever the
response's `serverTime` is ≥ the previous watermark. -/
theorem lastSyncAt_tracks_serverTime (cs : ClientState) (status : Nat)
    (body : SyncResponseJson) (now t : Nat)
    (h1 : 200 ≤ status) (h2 : status < 300) (hst : body.serverTime = some t) :
    ∃ cs', syncFromRemote cs status body now = Except.ok cs' ∧
      cs'.syncState.lastSyncAt = some t ∧
      (tsVal cs.syncState.lastSyncAt ≤ tsVal body.serverTime →
        tsVal cs.syncState.lastSyncAt ≤ tsVal cs'.syncState.lastSyncAt) := by
  have hok : syncFromRemote cs status body now = Except.ok
      ⟨applyRemoteChanges (ensureLocalMetadata cs.entries cs.syncState.clientId now)
          body.entries body.deletedIds body.conflicts cs.syncState.lastSyncAt,
        ⟨cs.syncState.clientId, some (body.serverTime.getD now),
          cs.syncState.pendingDeletedIds.filter fun i =>
            ¬ body.deletedIds.contains i ∨ body.conflicts.any (·.id = i)⟩⟩ := by
    unfold syncFromRemote
    rw [if_pos ⟨h1, h2⟩]
  refine ⟨_, hok, ?_, ?_⟩
  · show some (body.serverTime.getD now) = some t
    rw [hst]
    rfl
  · intro hle
    show tsVal cs.syncState.lastSyncAt ≤ tsVal (some (body.serverTime.getD now))
    rw [hst] at hle ⊢
    exact hle

/-- C4, witness for the amended theorem: a successful cycle with
`serverTime = 7` against watermark 5 persists `lastSyncAt = 7 ≥ 5`. -/
theorem lastSyncAt_tracks_serverTime_witness :
    ∃ cs', syncFromRemote ⟨[], ⟨"A", some 5, []⟩⟩ 200 ⟨[], [], some 7, []⟩ 9 =
        Except.ok cs' ∧
      cs'.syncState.lastSyncAt = some 7 ∧
      (tsVal (some 5) ≤ tsVal (some 7) →
        tsVal (some 5) ≤ tsVal cs'.syncState.lastSyncAt) :=
  lastSyncAt_tracks_serverTime ⟨[], ⟨"A", some 5, []⟩⟩ 200 ⟨[], [], some 7, []⟩ 9 7
    (by decide) (by decide) rfl

/-! ## Claim C5: "keep local" conflict resolution -/

/-- C5 (code behaviour at the failing input): resolving an update-type
conflict with the "keep local" action changes neither the entry store
(the local entry keeps `updatedAt = 5` although the resolution happens at
time 9 — nothing is re-asserted, no `updatedAt` is bumped) nor the sync
state; the handler only removes the conflict from the outstanding list.
`handleResolveConflict` has no branch for action "local" on an
update-type conflict. -/
theorem keep_local_update_conflict_noop :
    handleResolveConflict
      ⟨[⟨"x", some 5, some "A", none, none, 1⟩], ⟨"A", some 5, []⟩,
        [⟨"x", ConflictType.update,
          some ⟨"x", some 5, some "A", none, none, 1⟩,
          some ⟨"x", some 7, some "B", none, none, 2⟩⟩]⟩
      "x" ResolveAction.keepLocal 9 =
      ⟨[⟨"x", some 5, some "A", none, none, 1⟩], ⟨"A", some 5, []⟩, []⟩ := by
  decide

/-! ## Claim C8: the storage degradation ladder -/

theorem trimLoop_eq_firstFit (att : List WordEntry → StoreOutcome) :
    ∀ (n : Nat) (l : List WordEntry),
      trimLoop att n l = specFirstFit att (dropOldestChain n l) := by
  intro n
  induction n with
  | zero => intro l; rfl
  | succ n ih =>
    intro l
    cases h : att l.dropLast <;>
      simp [trimLoop, dropOldestChain, specFirstFit, h, ih]

theorem specFirstFit_ok_shape (att : List WordEntry → StoreOutcome) :
    ∀ (ls : List (List WordEntry)) (st : Option (List WordEntry)) (l : List WordEntry),
      specFirstFit att ls = Except.ok (st, l) → st = some l ∨ (st = none ∧ l = []) := by
  intro ls
  induction ls with
  | nil =>
    intro st l h
    rw [specFirstFit] at h
    simp only [Except.ok.injEq, Prod.mk.injEq] at h
    exact Or.inr ⟨h.1.symm, h.2.symm⟩
  | cons x xs ih =>
    intro st l h
    rw [specFirstFit] at h
    split at h
    · simp only [Except.ok.injEq, Prod.mk.injEq] at h
      obtain ⟨h1, h2⟩ := h
      subst h2
      exact Or.inl h1.symm
    · cases h
    · exact ih st l h

/-- C8: `persistEntries` follows the degradation ladder in order — the
list as given, then with inline `data:` media replaced by null (no entry
removed), then dropping the oldest (last, in the newest-first store
order) entry one at a time, then the cleared store — attempting the write
at each rung, propagating any non-quota error immediately (this is
exactly `specFirstFit` over `specLadder`); and on success the returned
list is exactly what was persisted (or the store was cleared and `[]`
returned). -/
theorem persistEntries_follows_ladder (att : List WordEntry → StoreOutcome)
    (entries : List WordEntry) :
    persistEntries att entries = specFirstFit att (specLadder entries) ∧
    (∀ (st : Option (List WordEntry)) (l : List WordEntry),
      persistEntries att entries = Except.ok (st, l) →
      st = some l ∨ (st = none ∧ l = [])) := by
  have hmain : persistEntries att entries = specFirstFit att (specLadder entries) := by
    cases h1 : att entries with
    | ok => simp [persistEntries, specLadder, specFirstFit, h1]
    | failed => simp [persistEntries, specLadder, specFirstFit, h1]
    | quota =>
      cases h2 : att (stripEntriesMedia entries) with
      | ok => simp [persistEntries, specLadder, specFirstFit, h1, h2]
      | failed => simp [persistEntries, specLadder, specFirstFit, h1, h2]
      | quota =>
        simp [persistEntries, specLadder, specFirstFit, h1, h2, trimLoop_eq_firstFit]
  refine ⟨hmain, fun st l h => ?_⟩
  rw [hmain] at h
  exact specFirstFit_ok_shape att _ st l h

/-- C8, witness: a store that only fits one entry strips the inline image
then drops the oldest entry; the returned list equals what was stored. -/
theorem persistEntries_follows_ladder_witness :
    persistEntries
        (fun l => if l.length ≤ 1 then StoreOutcome.ok else StoreOutcome.quota)
        ([⟨"n", some 2, some "A", some ⟨true, 7⟩, none, 0⟩,
          ⟨"o", some 1, some "A", none, none, 1⟩] : List WordEntry) =
      specFirstFit
        (fun l => if l.length ≤ 1 then StoreOutcome.ok else StoreOutcome.quota)
        (specLadder ([⟨"n", some 2, some "A", some ⟨true, 7⟩, none, 0⟩,
          ⟨"o", some 1, some "A", none, none, 1⟩] : List WordEntry)) ∧
    (some ([⟨"n", some 2, some "A", none, none, 0⟩] : List WordEntry) =
        some [⟨"n", some 2, some "A", none, none, 0⟩] ∨
      (some ([⟨"n", some 2, some "A", none, none, 0⟩] : List WordEntry) = none ∧
        ([⟨"n", some 2, some "A", none, none, 0⟩] : List WordEntry) = [])) :=
  ⟨(persistEntries_follows_ladder
      (fun l => if l.length ≤ 1 then StoreOutcome.ok else StoreOutcome.quota)
      ([⟨"n", some 2, some "A", some ⟨true, 7⟩, none, 0⟩,
        ⟨"o", some 1, some "A", none, none, 1⟩] : List WordEntry)).1,
   (persistEntries_follows_ladder
      (fun l => if l.length ≤ 1 then StoreOutcome.ok else StoreOutcome.quota)
      ([⟨"n", some 2, some "A", some ⟨true, 7⟩, none, 0⟩,
        ⟨"o", some 1, some "A", none, none, 1⟩] : List WordEntry)).2
     (some [⟨"n", some 2, some "A", none, none, 0⟩])
     [⟨"n", some 2, some "A", none, none, 0⟩] rfl⟩

/-! ## Claim C9: updating an unknown id is a no-op -/

theorem updateEntryList_unknown (L : List WordEntry) (x : WordEntry)
    (now : Nat) (cid : String) (h : ∀ e ∈ L, e.id ≠ x.id) :
    updateEntryList L x now cid = L := by
  unfold updateEntryList stampEntryMetadata
  induction L with
  | nil => rfl
  | cons e es ih =>
    rw [List.map_cons]
    have he : ¬ e.id = x.id := h e (List.mem_cons_self e es)
    rw [if_neg he, ih (fun e' he' => h e' (List.mem_cons_of_mem e he'))]

/-- C9: `updateWordEntry` on an entry whose id occurs nowhere in the
stored list persists the stored list unchanged — no entry added, removed
or modified (the stamped entry replaces nothing, and no insert happens);
when the write succeeds, exactly the original list is stored and
returned. -/
theorem updateWordEntry_unknown_id_noop (att : List WordEntry → StoreOutcome)
    (L : List WordEntry) (x : WordEntry) (now : Nat) (cid : String)
    (h : ∀ e ∈ L, e.id ≠ x.id) :
    updateWordEntry att L x now cid = persistEntries att L ∧
    (att L = StoreOutcome.ok →
      updateWordEntry att L x now cid = Except.ok (some L, L)) := by
  have hl : updateEntryList L x now cid = L := updateEntryList_unknown L x now cid h
  constructor
  · unfold updateWordEntry
    rw [hl]
  · intro hok
    unfold updateWordEntry
    rw [hl, persistEntries, hok]

/-- C9, witness: updating an entry with the unknown id "b" leaves the
stored one-entry list exactly as it was. -/
theorem updateWordEntry_unknown_id_noop_witness :
    updateWordEntry (fun _ => StoreOutcome.ok)
        [⟨"a", some 4, some "A", none, none, 1⟩]
        ⟨"b", some 6, some "A", none, none, 2⟩ 9 "A" =
      Except.ok (some [⟨"a", some 4, some "A", none, none, 1⟩],
        [⟨"a", some 4, some "A", none, none, 1⟩]) :=
  (updateWordEntry_unknown_id_noop (fun _ => StoreOutcome.ok)
    [⟨"a", some 4, some "A", none, none, 1⟩]
    ⟨"b", some 6, some "A", none, none, 2⟩ 9 "A" (by decide)).2 rfl

end Germanapp
